import Mathlib

/-!
Verification development for the MindControl motor-control library
(`mindctrl.py`).  The definitions below are a shallow embedding of the
relevant parts of the source: numeric values carried by the protocol are
modelled as rationals (`ℚ`, the code manipulates Python ints and floats with
exact small-denominator values in every behaviour claimed), byte sequences as
`List ℕ` with every entry kept below 256 by explicit masking, and Python
exceptions (`ZeroDivisionError`, `ValueError`, early `return None` error
paths) as `Option`/explicit error components.  Sends to the serial transport
are modelled by returning the list of message payloads handed to
`EV3.send` / `port.write`.
-/

/-- Python's built-in `round` applied to an exact rational: nearest integer
with ties going to the even neighbour (banker's rounding).  This is the
rounding used throughout `mindctrl.py` (`pack1b`..`pack5b`, the simultaneous
speed scaling in `EV3.rotate`, and `getstepper`). -/
def pyround (q : ℚ) : ℤ :=
  let f := ⌊q⌋
  if q - f < 1 / 2 then f
  else if 1 / 2 < q - f then f + 1
  else if f % 2 = 0 then f else f + 1

/-- `pack1b` (mindctrl.py:47-48): `bytes((round(value),))`.  Python's
`bytes` constructor raises `ValueError` unless the rounded value lies in
`0..255`; the failure is modelled as `none`. -/
def pack1b (value : ℚ) : Option (List ℕ) :=
  let v := pyround value
  if 0 ≤ v ∧ v < 256 then some [v.toNat] else none

/-- `pack2b` (mindctrl.py:51-54): `[129, round(value) & 255]`. -/
def pack2b (value : ℚ) : List ℕ :=
  [129, ((pyround value) % 256).toNat]

/-- `pack3b` (mindctrl.py:57-62): `[130, v & 255, (v >> 8) & 255]` for
`v = round(value)`; Python's `>>` on ints is an arithmetic (floor) shift,
which for the positive power-of-two divisors used here coincides with the
Euclidean division `Int./`, and `& 255` is `% 256` (`Int.emod`). -/
def pack3b (value : ℚ) : List ℕ :=
  let v := pyround value
  [130, (v % 256).toNat, ((v / 256) % 256).toNat]

/-- `pack5b` (mindctrl.py:65-72): `[131, v & 255, (v >> 8) & 255,
(v >> 16) & 255, (v >> 24) & 255]` for `v = round(value)`. -/
def pack5b (value : ℚ) : List ℕ :=
  let v := pyround value
  [131, (v % 256).toNat, ((v / 256) % 256).toNat,
   ((v / 65536) % 256).toNat, ((v / 16777216) % 256).toNat]

/-- Adapted start vector of `getstepper` (mindctrl.py:129-131): `None`
entries become 0, then the start list is truncated to the end list's length
and padded with zeros.  The claims under verification concern the
integer-valued calls, so components are `ℤ`. -/
def stepperStart (start0 end0 : List (Option ℤ)) : List ℤ :=
  let s1 := (start0.map (fun v => v.getD 0)).take end0.length
  s1 ++ List.replicate (end0.length - s1.length) 0

/-- Normalized end vector of `getstepper` (mindctrl.py:134): `None`
entries become 0. -/
def stepperEnd (end0 : List (Option ℤ)) : List ℤ :=
  end0.map (fun v => v.getD 0)

/-- Per-motor displacement `delta` of `getstepper` (mindctrl.py:138):
`end[m] - start[m]` over the common length. -/
def stepperDelta (start0 end0 : List (Option ℤ)) : List ℤ :=
  List.zipWith (fun a b => a - b) (stepperEnd end0) (stepperStart start0 end0)

/-- Step count of `getstepper` (mindctrl.py:139): `max(abs(v) for v in
delta)` (as a natural number; the Python value is a nonnegative int). -/
def stepperSteps (start0 end0 : List (Option ℤ)) : ℕ :=
  (stepperDelta start0 end0).foldl (fun a d => max a d.natAbs) 0

/-- Waypoint rounding of `getstepper` (mindctrl.py:149):
`round(v + 1e-10)`, the epsilon added to bias ties away from
round-half-to-even artifacts. -/
def stepperRound (v : ℚ) : ℤ :=
  pyround (v + 1 / 10000000000)

/-- Iteration loop of `getstepper` (mindctrl.py:144-149): starting from the
running position `cur`, add `inc` componentwise each step and append the
rounded waypoint, `n` times. -/
def stepperLoop (cur inc : List ℚ) : ℕ → List (List ℤ)
  | 0 => []
  | n + 1 =>
    let nxt := List.zipWith (fun a b => a + b) cur inc
    nxt.map stepperRound :: stepperLoop nxt inc n

/-- `getstepper(start, end)` (mindctrl.py:118-151) for a two-list call; a
one-list call `getstepper(end)` sets `start = [0]`, which the adapt step of
mindctrl.py:129-131 makes equivalent to passing `start = []` here.  `none`
models the exceptional exits of the source: `max([])` raises `ValueError`
when `end` is empty, and `delta[m] / steps` raises `ZeroDivisionError` when
`steps == 0`. -/
def getstepper (start0 end0 : List (Option ℤ)) : Option (List (List ℤ)) :=
  let s := stepperStart start0 end0
  let delta := stepperDelta start0 end0
  if (stepperEnd end0).length = 0 then none
  else
    let steps := stepperSteps start0 end0
    if steps = 0 then none
    else
      let inc : List ℚ := delta.map (fun d : ℤ => (d : ℚ) / steps)
      some (s :: stepperLoop (s.map (fun z : ℤ => (z : ℚ))) inc steps)

/-- Angle normalization of `EV3.rotate` (mindctrl.py:289-292): `None`
entries become 0 and the list is padded with zeros to 4 entries. -/
def ev3Normalize (motors0 : List (Option ℚ)) : List ℚ :=
  (motors0.map (fun v => v.getD 0)) ++ List.replicate (4 - motors0.length) 0

/-- `maxangle` of the simultaneous branch of `EV3.rotate` (mindctrl.py:299):
`max(abs(val) for val in motors)` over the normalized (nonempty) list. -/
def ev3MaxAngle (motors : List ℚ) : ℚ :=
  (motors.map (fun v => |v|)).foldl max 0

/-- `moves` aggregator of the simultaneous branch of `EV3.rotate`
(mindctrl.py:301-307): for each nonzero angle, the triple
(motor bitmask byte `2^index`, angle, `round(abs(speed*angle/maxangle)) or 1`). -/
def ev3SimultMoves (motors : List ℚ) (speed : ℚ) : List (ℕ × ℚ × ℤ) :=
  let maxangle := ev3MaxAngle motors
  (motors.enum.filter (fun p => decide (p.2 ≠ 0))).map
    (fun p => (2 ^ p.1, p.2,
      let r := pyround |speed * p.2 / maxangle|
      if r = 0 then 1 else r))

/-- Message assembled by the simultaneous branch of `EV3.rotate`
(mindctrl.py:309-346): 5-byte header, then per move a polarity opcode
(`167,0,mask,63` reverse / `167,0,mask,1` forward) and a movement opcode
(`174,0,mask`, 2-byte speed, 5-byte ramp-up 0, 5-byte angle, 5-byte
ramp-down 0, brake flag 1), then the wait opcode `170,0,15`. -/
def ev3SimultMsg (motors : List ℚ) (speed : ℚ) : List ℕ :=
  let moves := ev3SimultMoves motors speed
  let body := moves.foldl (fun acc mv =>
    let polarity := [167, 0] ++ [mv.1] ++ [if mv.2.1 < 0 then (63 : ℕ) else 1]
    let movement := [174, 0] ++ [mv.1] ++ pack2b (mv.2.2 : ℚ) ++ pack5b 0 ++
      pack5b mv.2.1 ++ pack5b 0 ++ [1]
    acc ++ polarity ++ movement) []
  [0, 0, 0, 0, 0] ++ body ++ [170, 0, 15]

/-- Per-motor message of the sequential branch of `EV3.rotate`
(mindctrl.py:357-391): header, polarity, movement (full supplied speed),
explicit motor start `166,0,mask`, and the wait opcode. -/
def ev3SequentialMsg (i : ℕ) (angle : ℚ) (speed : ℚ) : List ℕ :=
  let motorhex := [2 ^ i]
  let polarity := [167, 0] ++ motorhex ++ [if angle < 0 then (63 : ℕ) else 1]
  let body := [174, 0] ++ motorhex ++ pack2b speed ++ pack5b 0 ++
    pack5b angle ++ pack5b 0 ++ [1]
  [0, 0, 0, 0, 0] ++ polarity ++ body ++ ([166, 0] ++ motorhex) ++ [170, 0, 15]

/-- `EV3.rotate` (mindctrl.py:278-395), modelled as the list of message
payloads handed to `EV3.send` (one element in the simultaneous branch, one
per nonzero motor in the sequential branch).  `none` models the
`return None` error exit for more than 4 angle parameters, which happens
before anything is written to the transport. -/
def ev3rotate (motors0 : List (Option ℚ)) (speed : ℚ) (simult : Bool) :
    Option (List (List ℕ)) :=
  if motors0.length > 4 then none
  else
    let motors := ev3Normalize motors0
    if simult then some [ev3SimultMsg motors speed]
    else some ((motors.enum.filter (fun p => decide (p.2 ≠ 0))).map
      (fun p => ev3SequentialMsg p.1 p.2 speed))

/-- Session state of an `EV3` object (mindctrl.py:254-255): the relative
position table and the per-motor scale factors, both 4 entries. -/
structure EV3State where
  relposition : List ℚ
  relscale : List ℚ

/-- Delta/update loop shared verbatim by `EV3.rotateto`
(mindctrl.py:419-428) and `NXT.rotateto` (mindctrl.py:708-717): iterate over
the (padded) target list with its index; a `None` target contributes delta 0
and leaves the position table alone; a present target `t` at index `i`
contributes delta `(t - relposition[i]) * relscale[i]` and sets
`relposition[i] = t`.  Returns the delta list and the final position table. -/
def rotatetoDeltas (relscale : List ℚ) (pos : List ℚ)
    (relpos : List (Option ℚ)) (i : ℕ) : List ℚ × List ℚ :=
  match relpos with
  | [] => ([], pos)
  | none :: rest =>
    let r := rotatetoDeltas relscale pos rest (i + 1)
    (0 :: r.1, r.2)
  | some t :: rest =>
    let d := (t - pos.getD i 0) * relscale.getD i 0
    let r := rotatetoDeltas relscale (pos.set i t) rest (i + 1)
    (d :: r.1, r.2)

/-- `EV3.rotateto` (mindctrl.py:402-431): guard against more than 4 position
parameters (error before any table access, modelled by returning the state
unchanged paired with `none`), pad the target list with `None` to 4 entries,
run the delta/update loop and delegate to `EV3.rotate` on the deltas. -/
def ev3rotateto (st : EV3State) (relpos0 : List (Option ℚ)) (speed : ℚ)
    (simult : Bool) : EV3State × Option (List (List ℕ)) :=
  if relpos0.length > 4 then (st, none)
  else
    let relpos := relpos0 ++ List.replicate (4 - relpos0.length) none
    let r := rotatetoDeltas st.relscale st.relposition relpos 0
    (⟨r.2, st.relscale⟩, ev3rotate (r.1.map (fun d => some d)) speed simult)

/-- `NXT.rotate` (mindctrl.py:627-685), modelled as the list of per-motor
command value triples (motor number `index+1`, angle, speed) sent to the
companion program; each triple is carried on the wire as three fixed-opcode
frames holding the values as IEEE-754 singles, and is followed by the
mailbox polling loop modelled separately by `ackPoll`.  `none` models the
`return None` error exit for more than 3 angle parameters, which happens
before anything is written.  The source pads the angle list with zeros to 4
entries (a harmless quirk: the padded zero entries are skipped). -/
def nxtrotate (motors0 : List (Option ℚ)) (speed : ℚ) :
    Option (List (ℚ × ℚ × ℚ)) :=
  if motors0.length > 3 then none
  else
    let motors := (motors0.map (fun v => v.getD 0)) ++
      List.replicate (4 - motors0.length) 0
    some ((motors.enum.filter (fun p => decide (p.2 ≠ 0))).map
      (fun p => ((p.1 + 1 : ℕ), p.2, speed)))

/-- Session state of an `NXT` object (mindctrl.py:597-598): 3-wide relative
position table and scale factors. -/
structure NXTState where
  relposition : List ℚ
  relscale : List ℚ

/-- `NXT.rotateto` (mindctrl.py:691-720): guard against more than 3 position
parameters, pad the target list with `None` to 3 entries, run the same
delta/update loop as the EV3 version and delegate to `NXT.rotate`. -/
def nxtrotateto (st : NXTState) (relpos0 : List (Option ℚ)) (speed : ℚ) :
    NXTState × Option (List (ℚ × ℚ × ℚ)) :=
  if relpos0.length > 3 then (st, none)
  else
    let relpos := relpos0 ++ List.replicate (3 - relpos0.length) none
    let r := rotatetoDeltas st.relscale st.relposition relpos 0
    (⟨r.2, st.relscale⟩, nxtrotate (r.1.map (fun d => some d)) speed)

/-- Whether `needle` is an initial segment of `hay` (byte lists). -/
def listStartsWith : List ℕ → List ℕ → Bool
  | [], _ => true
  | _ :: _, [] => false
  | a :: as, b :: bs => a == b && listStartsWith as bs

/-- Python's `needle in hay` for byte strings: contiguous substring test. -/
def bytesContains (needle : List ℕ) : List ℕ → Bool
  | [] => listStartsWith needle []
  | a :: rest => listStartsWith needle (a :: rest) || bytesContains needle rest

/-- The 3-byte mailbox rejection signature `bytes((2, 19, 236))` of
`NXT.rotate` (mindctrl.py:674). -/
def rejectionSig : List ℕ := [2, 19, 236]

/-- The literal acknowledgment token `b'ACKNOWLEDGED'` of `NXT.rotate`
(mindctrl.py:680), as ASCII byte values. -/
def ackToken : List ℕ := [65, 67, 75, 78, 79, 87, 76, 69, 68, 71, 69, 68]

/-- The transient acknowledgment outcome of one class-B rotate sub-command. -/
inductive AckState where
  | acknowledged : AckState
  | rejected : AckState
deriving DecidableEq, Repr

/-- Mailbox polling loop of `NXT.rotate` (mindctrl.py:660-682), run against
a canned sequence of reply payloads: each poll increments `replywaits`; a
reply whose first three bytes equal the rejection signature resolves to
`rejected` (the `reply[0:3] == bytes((2,19,236))` check, a prefix test);
otherwise a reply containing `ACKNOWLEDGED` as a substring resolves to
`acknowledged`; any other reply leads to another poll.  `none` models the
source's unbounded `while True` blocking forever once the canned replies are
exhausted. -/
def ackPoll (replies : List (List ℕ)) (replywaits : ℕ) :
    Option (AckState × ℕ) :=
  match replies with
  | [] => none
  | reply :: rest =>
    if reply.take 3 = rejectionSig then some (.rejected, replywaits + 1)
    else if bytesContains ackToken reply then some (.acknowledged, replywaits + 1)
    else ackPoll rest (replywaits + 1)

/-! ### Helper lemmas about Python rounding -/

theorem pyround_eq_floor (z : ℤ) (q : ℚ) (h1 : (z : ℚ) ≤ q) (h2 : q < z + 1 / 2) :
    pyround q = z := by
  have hf : ⌊q⌋ = z := Int.floor_eq_iff.mpr ⟨h1, by linarith⟩
  simp only [pyround]
  rw [hf, if_pos (by linarith : q - (z : ℚ) < 1 / 2)]

theorem pyround_eq_ceil (z : ℤ) (q : ℚ) (h1 : (z : ℚ) + 1 / 2 < q) (h2 : q < z + 1) :
    pyround q = z + 1 := by
  have hf : ⌊q⌋ = z := Int.floor_eq_iff.mpr ⟨by linarith, by linarith⟩
  simp only [pyround]
  rw [hf, if_neg (by linarith), if_pos (by linarith)]

theorem pyround_intCast (z : ℤ) : pyround (z : ℚ) = z := by
  simp only [pyround]
  rw [Int.floor_intCast, if_pos (by norm_num : (z : ℚ) - (z : ℚ) < 1 / 2)]

theorem pyround_int_add_half (k : ℤ) :
    pyround ((k : ℚ) + 1 / 2) = if k % 2 = 0 then k else k + 1 := by
  have hf : ⌊(k : ℚ) + 1 / 2⌋ = k := Int.floor_eq_iff.mpr ⟨by linarith, by linarith⟩
  have he : (k : ℚ) + 1 / 2 - (k : ℚ) = 1 / 2 := by ring
  simp only [pyround]
  rw [hf, he, if_neg (by norm_num), if_neg (by norm_num)]

theorem pyround_nonneg (q : ℚ) (h : 0 ≤ q) : 0 ≤ pyround q := by
  have hf : 0 ≤ ⌊q⌋ := Int.floor_nonneg.mpr h
  simp only [pyround]
  split
  · exact hf
  split
  · omega
  split <;> omega

theorem pyround_add_int_even (q : ℚ) (n : ℤ) (hn : n % 2 = 0) :
    pyround (q + n) = pyround q + n := by
  have hf : ⌊q + (n : ℚ)⌋ = ⌊q⌋ + n := Int.floor_add_int q n
  have he : q + (n : ℚ) - ((⌊q⌋ + n : ℤ) : ℚ) = q - (⌊q⌋ : ℚ) := by push_cast; ring
  simp only [pyround]
  rw [hf, he]
  by_cases h1 : q - (⌊q⌋ : ℚ) < 1 / 2
  · rw [if_pos h1, if_pos h1]
  · rw [if_neg h1, if_neg h1]
    by_cases h2 : 1 / 2 < q - (⌊q⌋ : ℚ)
    · rw [if_pos h2, if_pos h2]; ring
    · rw [if_neg h2, if_neg h2]
      by_cases h3 : ⌊q⌋ % 2 = 0
      · rw [if_pos (by omega), if_pos h3]
      · rw [if_neg (by omega), if_neg h3]; ring

theorem pyround_int_add_small (z : ℤ) (q : ℚ) (h0 : 0 ≤ q) (h1 : q < 1 / 2) :
    pyround ((z : ℚ) + q) = z :=
  pyround_eq_floor z _ (by linarith) (by linarith)

/-! ### Claim C4 -/

/-- C4 counterexample: the operand encoders do not round half away from
zero.  At input 2.5 (`k = 2` in the claim's terms) the two-byte encoder
emits value byte 2, not the claimed `k + 1 = 3`; at input -2.5 it emits the
mask of -2 (byte 254), not the claimed mask of `-(k + 1) = -3` (byte 253). -/
theorem pack2b_half_away_refuted :
    pack2b (5 / 2) = [129, 2] ∧ pack2b (5 / 2) ≠ [129, 3] ∧
    pack2b (-(5 / 2)) = [129, 254] ∧ pack2b (-(5 / 2)) ≠ [129, 253] := by
  have harg : (5 / 2 : ℚ) = ((2 : ℤ) : ℚ) + 1 / 2 := by norm_num
  have h1 : pyround (5 / 2 : ℚ) = 2 := by
    rw [harg, pyround_int_add_half]
    norm_num
  have harg2 : (-(5 / 2) : ℚ) = ((-3 : ℤ) : ℚ) + 1 / 2 := by norm_num
  have h2 : pyround (-(5 / 2) : ℚ) = -2 := by
    rw [harg2, pyround_int_add_half]
    norm_num
  refine ⟨?_, ?_, ?_, ?_⟩ <;> simp [pack2b, h1, h2]

/-- C4 (amended): for every real input, each of the four operand encoders
rounds to the nearest integer before masking, but a tie — an input exactly
halfway between two integers — is broken to the even neighbour (Python
banker's rounding), not away from zero.  Stated as: every encoder encodes
`q` exactly as it encodes the integer `round(q)`; off ties `round(q)` is the
unique nearest integer; and on ties, for all four encoders, `k + 0.5`
encodes as `k` when `k` is even and as `k + 1` when `k` is odd, and
`-(k + 0.5)` encodes as the negation of that same value. -/
theorem valueEncoder_rounds_half_to_even :
    (∀ q : ℚ,
      pack1b q = pack1b ((pyround q : ℤ) : ℚ) ∧
      pack2b q = pack2b ((pyround q : ℤ) : ℚ) ∧
      pack3b q = pack3b ((pyround q : ℤ) : ℚ) ∧
      pack5b q = pack5b ((pyround q : ℤ) : ℚ)) ∧
    (∀ (z : ℤ) (q : ℚ), |q - (z : ℚ)| < 1 / 2 → pyround q = z) ∧
    (∀ k : ℤ,
      pyround ((k : ℚ) + 1 / 2) = (if k % 2 = 0 then k else k + 1) ∧
      pyround (-((k : ℚ) + 1 / 2)) = -(if k % 2 = 0 then k else k + 1) ∧
      pack1b ((k : ℚ) + 1 / 2) =
        pack1b (((if k % 2 = 0 then k else k + 1) : ℤ) : ℚ) ∧
      pack2b ((k : ℚ) + 1 / 2) =
        pack2b (((if k % 2 = 0 then k else k + 1) : ℤ) : ℚ) ∧
      pack3b ((k : ℚ) + 1 / 2) =
        pack3b (((if k % 2 = 0 then k else k + 1) : ℤ) : ℚ) ∧
      pack5b ((k : ℚ) + 1 / 2) =
        pack5b (((if k % 2 = 0 then k else k + 1) : ℤ) : ℚ) ∧
      pack1b (-((k : ℚ) + 1 / 2)) =
        pack1b ((-(if k % 2 = 0 then k else k + 1) : ℤ) : ℚ) ∧
      pack2b (-((k : ℚ) + 1 / 2)) =
        pack2b ((-(if k % 2 = 0 then k else k + 1) : ℤ) : ℚ) ∧
      pack3b (-((k : ℚ) + 1 / 2)) =
        pack3b ((-(if k % 2 = 0 then k else k + 1) : ℤ) : ℚ) ∧
      pack5b (-((k : ℚ) + 1 / 2)) =
        pack5b ((-(if k % 2 = 0 then k else k + 1) : ℤ) : ℚ)) := by
  refine ⟨?_, ?_, ?_⟩
  · intro q
    refine ⟨?_, ?_, ?_, ?_⟩ <;> simp only [pack1b, pack2b, pack3b, pack5b,
      pyround_intCast]
  · intro z q h
    rw [abs_sub_lt_iff] at h
    rcases le_or_lt (z : ℚ) q with hle | hlt
    · exact pyround_eq_floor z q hle (by linarith [h.1])
    · have hz : pyround q = z - 1 + 1 :=
        pyround_eq_ceil (z - 1) q (by push_cast; linarith [h.2])
          (by push_cast; linarith)
      omega
  · intro k
    set r : ℤ := if k % 2 = 0 then k else k + 1 with hr
    have h1 : pyround ((k : ℚ) + 1 / 2) = r := pyround_int_add_half k
    have h2 : pyround ((r : ℤ) : ℚ) = r := pyround_intCast r
    have h3 : pyround (-((k : ℚ) + 1 / 2)) = -r := by
      have harg : -((k : ℚ) + 1 / 2) = ((-k - 1 : ℤ) : ℚ) + 1 / 2 := by
        push_cast
        ring
      rw [harg, pyround_int_add_half, hr]
      by_cases hk : k % 2 = 0
      · rw [if_neg (by omega), if_pos hk]
        ring
      · rw [if_pos (by omega), if_neg hk]
        ring
    have h4 : pyround (((-r : ℤ)) : ℚ) = -r := pyround_intCast _
    refine ⟨h1, h3, ?_, ?_, ?_, ?_, ?_, ?_, ?_, ?_⟩ <;>
      simp only [pack1b, pack2b, pack3b, pack5b, h1, h2, h3, h4]

/-- C4 witness: the amended statement applied at the off-tie input 2.25
(nearest integer 2) and at the tie input 2.5 for the two-byte encoder. -/
theorem valueEncoder_rounds_half_to_even_witness :
    pyround (9 / 4 : ℚ) = 2 ∧
    pack2b ((2 : ℤ) + 1 / 2 : ℚ) =
      pack2b ((((if (2 : ℤ) % 2 = 0 then (2 : ℤ) else 2 + 1) : ℤ)) : ℚ) :=
  ⟨valueEncoder_rounds_half_to_even.2.1 2 (9 / 4)
      (by rw [abs_sub_lt_iff]; exact ⟨by norm_num, by norm_num⟩),
   (valueEncoder_rounds_half_to_even.2.2 2).2.2.2.1⟩

/-! ### Claim C5 -/

/-- C5 counterexample: the 1-byte direct-constant encoder does not succeed
for negative values: `bytes((round(-1),))` raises `ValueError` (modelled as
`none`), so `-1` — representable as a signed byte — is rejected. -/
theorem pack1b_negative_refuted : pack1b (-1) = none := by
  have h : pyround (-1 : ℚ) = -1 := by
    have := pyround_intCast (-1)
    simpa using this
  simp [pack1b, h]

/-- C5 (amended): the 2-, 3- and 5-byte encoders are total — they always
return a byte sequence of the format's fixed width, out-of-range magnitudes
wrap modulo the format's range (two's-complement masking) — while the 1-byte
encoder succeeds exactly when the rounded input lies in `0..255`: in
particular it fails for every value rounding to a negative integer. -/
theorem valueEncoder_totality (q : ℚ) :
    (pack2b q).length = 2 ∧ (pack3b q).length = 3 ∧ (pack5b q).length = 5 ∧
    pack2b (q + 256) = pack2b q ∧
    pack3b (q + 65536) = pack3b q ∧
    pack5b (q + 4294967296) = pack5b q ∧
    ((pack1b q).isSome ↔ 0 ≤ pyround q ∧ pyround q < 256) := by
  have c2 : (q + 256 : ℚ) = q + ((256 : ℤ) : ℚ) := by norm_num
  have c3 : (q + 65536 : ℚ) = q + ((65536 : ℤ) : ℚ) := by norm_num
  have c5 : (q + 4294967296 : ℚ) = q + ((4294967296 : ℤ) : ℚ) := by norm_num
  have h2 : pyround (q + ((256 : ℤ) : ℚ)) = pyround q + 256 :=
    pyround_add_int_even q 256 (by norm_num)
  have h3 : pyround (q + ((65536 : ℤ) : ℚ)) = pyround q + 65536 :=
    pyround_add_int_even q 65536 (by norm_num)
  have h5 : pyround (q + ((4294967296 : ℤ) : ℚ)) = pyround q + 4294967296 :=
    pyround_add_int_even q 4294967296 (by norm_num)
  refine ⟨by simp [pack2b], by simp [pack3b], by simp [pack5b], ?_, ?_, ?_, ?_⟩
  · rw [c2]
    simp only [pack2b, h2]
    congr 2
    omega
  · rw [c3]
    simp only [pack3b, h3]
    have e1 : (pyround q + 65536) % 256 = pyround q % 256 := by omega
    have e2 : (pyround q + 65536) / 256 % 256 = pyround q / 256 % 256 := by omega
    rw [e1, e2]
  · rw [c5]
    simp only [pack5b, h5]
    have e1 : (pyround q + 4294967296) % 256 = pyround q % 256 := by omega
    have e2 : (pyround q + 4294967296) / 256 % 256 = pyround q / 256 % 256 := by omega
    have e3 : (pyround q + 4294967296) / 65536 % 256 = pyround q / 65536 % 256 := by
      omega
    have e4 : (pyround q + 4294967296) / 16777216 % 256 =
        pyround q / 16777216 % 256 := by omega
    rw [e1, e2, e3, e4]
  · by_cases h : 0 ≤ pyround q ∧ pyround q < 256 <;> simp [pack1b, h]

/-! ### Claim C6 -/

theorem snd_mem_of_mem_enumFrom {α : Type} (l : List α) (n : ℕ) (p : ℕ × α)
    (hp : p ∈ List.enumFrom n l) : p.2 ∈ l := by
  induction l generalizing n with
  | nil => simp [List.enumFrom] at hp
  | cons a t ih =>
    simp only [List.enumFrom, List.mem_cons] at hp
    rcases hp with rfl | hp
    · simp
    · exact List.mem_cons_of_mem a (ih (n + 1) hp)

theorem enumFrom_filter_ne_zero_nil (n : ℕ) (l : List ℚ) (h : ∀ v ∈ l, v = 0) :
    (List.enumFrom n l).filter (fun p => decide (p.2 ≠ 0)) = [] := by
  rw [List.filter_eq_nil_iff]
  intro p hp
  simp [h p.2 (snd_mem_of_mem_enumFrom l n p hp)]

theorem ev3SimultMoves_nil (motors : List ℚ) (speed : ℚ)
    (h : ∀ v ∈ motors, v = 0) : ev3SimultMoves motors speed = [] := by
  simp only [ev3SimultMoves]
  have he : motors.enum = List.enumFrom 0 motors := rfl
  rw [he, enumFrom_filter_ne_zero_nil 0 motors h, List.map_nil]

/-- C6 counterexample: a simultaneous `EV3.rotate` call whose angles are all
zero still hands a message to `EV3.send` — the 5-byte header followed by the
wait opcode — so bytes are written to the transport, contradicting the
claim that nothing is sent. -/
theorem ev3_simult_allzero_sends :
    ev3rotate [some 0, some 0, some 0, some 0] 100 true =
      some [[0, 0, 0, 0, 0, 170, 0, 15]] := by decide

/-- C6 (amended): for every simultaneous `EV3.rotate` call in which every
supplied angle is zero, `None` or omitted, no polarity or movement operand
group is built, but a message consisting of only the header and the wait
opcode is still sent. -/
theorem ev3_simult_allzero_message (motors0 : List (Option ℚ)) (speed : ℚ)
    (h4 : motors0.length ≤ 4) (hz : ∀ v ∈ motors0, v.getD 0 = 0) :
    ev3rotate motors0 speed true = some [[0, 0, 0, 0, 0, 170, 0, 15]] := by
  have hall : ∀ v ∈ ev3Normalize motors0, v = 0 := by
    intro v hv
    simp only [ev3Normalize, List.mem_append, List.mem_map,
      List.mem_replicate] at hv
    rcases hv with ⟨a, ha, rfl⟩ | ⟨-, rfl⟩
    · exact hz a ha
    · rfl
  have hmv := ev3SimultMoves_nil (ev3Normalize motors0) speed hall
  have hlen : ¬ motors0.length > 4 := by omega
  simp [ev3rotate, hlen, ev3SimultMsg, hmv]

/-- C6 witness: concrete instance of the amended claim. -/
theorem ev3_simult_allzero_message_witness :
    ev3rotate [some 0, none] 100 true = some [[0, 0, 0, 0, 0, 170, 0, 15]] :=
  ev3_simult_allzero_message [some 0, none] 100 (by decide) (by decide)

/-! ### Claim C7 -/

/-- C7 counterexample: a reply that is not byte-equal to the 3-byte
rejection signature and does not contain the acknowledgment token — so,
per the claim, "any other reply", which should merely cause another poll —
is nevertheless resolved as `Rejected` on the spot, because the source
compares only the first three bytes (`reply[0:3]`). -/
theorem ackPoll_other_reply_refuted :
    ackPoll [[2, 19, 236, 7], ackToken] 0 = some (.rejected, 1) ∧
    [2, 19, 236, 7] ≠ rejectionSig ∧
    bytesContains ackToken [2, 19, 236, 7] = false := by decide

/-- C7 (amended): after a class-B rotate sub-message, a reply whose first
three bytes equal the rejection signature resolves to `Rejected`
immediately; otherwise a reply containing the acknowledgment token as a
substring resolves to `Acknowledged`; any other reply causes another
mailbox poll.  Two non-matching polls followed by a token-bearing reply
resolve to `Acknowledged` after exactly 3 polls, and a first-poll reply
equal to the rejection signature resolves to `Rejected` after exactly
1 poll. -/
theorem ackPoll_resolution (reply : List ℕ) (rest : List (List ℕ)) (n : ℕ) :
    (reply.take 3 = rejectionSig →
      ackPoll (reply :: rest) n = some (.rejected, n + 1)) ∧
    (reply.take 3 ≠ rejectionSig → bytesContains ackToken reply = true →
      ackPoll (reply :: rest) n = some (.acknowledged, n + 1)) ∧
    (reply.take 3 ≠ rejectionSig → bytesContains ackToken reply = false →
      ackPoll (reply :: rest) n = ackPoll rest (n + 1)) ∧
    (∀ r1 r2 : List ℕ, r1.take 3 ≠ rejectionSig →
      bytesContains ackToken r1 = false → r2.take 3 ≠ rejectionSig →
      bytesContains ackToken r2 = false →
      ackPoll [r1, r2, ackToken] 0 = some (.acknowledged, 3)) ∧
    ackPoll [rejectionSig] 0 = some (.rejected, 1) := by
  refine ⟨?_, ?_, ?_, ?_, by decide⟩
  · intro h
    simp [ackPoll, h]
  · intro h1 h2
    simp [ackPoll, h1, h2]
  · intro h1 h2
    simp [ackPoll, h1, h2]
  · intro r1 r2 h1 h2 h3 h4
    have e1 : ackPoll [r1, r2, ackToken] 0 = ackPoll [r2, ackToken] 1 := by
      simp [ackPoll, h1, h2]
    have e2 : ackPoll [r2, ackToken] 1 = ackPoll [ackToken] 2 := by
      simp [ackPoll, h3, h4]
    rw [e1, e2]
    decide

/-- C7 witness: concrete instance of the amended resolution behaviour. -/
theorem ackPoll_resolution_witness :
    ackPoll [[0], [0], ackToken] 0 = some (.acknowledged, 3) :=
  (ackPoll_resolution [0] [] 0).2.2.2.1 [0] [0] (by decide) (by decide)
    (by decide) (by decide)

/-! ### Claim C9 -/

/-- C9: `rotate` called with more angle values than the device class
supports (more than 4 for the EV3 class, more than 3 for the NXT class)
fails a priori — the source logs an error and returns `None` before
building or writing any message — so no bytes reach the transport. -/
theorem rotate_too_many_actuators :
    (∀ (motors0 : List (Option ℚ)) (speed : ℚ) (simult : Bool),
      4 < motors0.length → ev3rotate motors0 speed simult = none) ∧
    (∀ (motors0 : List (Option ℚ)) (speed : ℚ),
      3 < motors0.length → nxtrotate motors0 speed = none) := by
  constructor
  · intro m s b h
    simp [ev3rotate, h]
  · intro m s h
    simp [nxtrotate, h]

/-- C9 witness: 5 angles on the EV3 class, 4 on the NXT class. -/
theorem rotate_too_many_actuators_witness :
    ev3rotate [some 1, some 1, some 1, some 1, some 1] 100 false = none ∧
    nxtrotate [some 1, some 1, some 1, some 1] 100 = none :=
  ⟨rotate_too_many_actuators.1 [some 1, some 1, some 1, some 1, some 1] 100
      false (by decide),
   rotate_too_many_actuators.2 [some 1, some 1, some 1, some 1] 100 (by decide)⟩

/-! ### Claim C10 -/

/-- C10: `rotateto` called with more positions than the device class
supports returns the error before the relative-position table is read or
written: the session state is unchanged and nothing is handed to the
transport. -/
theorem rotateto_error_atomicity :
    (∀ (st : EV3State) (relpos0 : List (Option ℚ)) (speed : ℚ) (simult : Bool),
      4 < relpos0.length → ev3rotateto st relpos0 speed simult = (st, none)) ∧
    (∀ (st : NXTState) (relpos0 : List (Option ℚ)) (speed : ℚ),
      3 < relpos0.length → nxtrotateto st relpos0 speed = (st, none)) := by
  constructor
  · intro st rp s b h
    simp [ev3rotateto, h]
  · intro st rp s h
    simp [nxtrotateto, h]

/-- C10 witness: concrete oversized calls leave a concrete state intact. -/
theorem rotateto_error_atomicity_witness :
    ev3rotateto ⟨[0, 0, 0, 0], [1, 1, 1, 1]⟩
      [some 1, some 1, some 1, some 1, some 1] 100 true =
      (⟨[0, 0, 0, 0], [1, 1, 1, 1]⟩, none) ∧
    nxtrotateto ⟨[0, 0, 0], [1, 1, 1]⟩ [some 1, some 1, some 1, some 1] 100 =
      (⟨[0, 0, 0], [1, 1, 1]⟩, none) :=
  ⟨rotateto_error_atomicity.1 ⟨[0, 0, 0, 0], [1, 1, 1, 1]⟩
      [some 1, some 1, some 1, some 1, some 1] 100 true (by decide),
   rotateto_error_atomicity.2 ⟨[0, 0, 0], [1, 1, 1]⟩
      [some 1, some 1, some 1, some 1] 100 (by decide)⟩

/-! ### Claim C1 -/

theorem getD_mem_enumFrom {α : Type} (d : α) :
    ∀ (l : List α) (n i : ℕ), i < l.length →
      (n + i, l.getD i d) ∈ List.enumFrom n l := by
  intro l
  induction l with
  | nil =>
    intro n i h
    simp at h
  | cons a t ih =>
    intro n i h
    cases i with
    | zero => simp [List.enumFrom]
    | succ j =>
      have hj := ih (n + 1) j (by simpa using h)
      simp only [List.enumFrom, List.mem_cons, List.getD_cons_succ]
      right
      have : n + 1 + j = n + (j + 1) := by omega
      rwa [this] at hj

theorem one_le_clamp (r : ℤ) (h : 0 ≤ r) : 1 ≤ if r = 0 then 1 else r := by
  rcases eq_or_ne r 0 with rfl | hr
  · simp
  · rw [if_neg hr]
    omega

theorem pack2b_int (z : ℤ) : pack2b (z : ℚ) = [129, (z % 256).toNat] := by
  simp [pack2b, pyround_intCast]

theorem pack5b_int (z : ℤ) : pack5b (z : ℚ) =
    [131, (z % 256).toNat, (z / 256 % 256).toNat, (z / 65536 % 256).toNat,
     (z / 16777216 % 256).toNat] := by
  simp [pack5b, pyround_intCast]

/-- C1: for a simultaneous `EV3.rotate` dispatch, every emitted operand
group carries per-motor speed `round(|speed * angle / maxangle|)` floored
to a minimum of 1 (so it is never 0), every nonzero angle `i` produces the
operand group `(2^i, angle_i, that speed)`, and the request
`rotate(90, -45, 0, 0, speed=100, simult=True)` produces exactly one
message whose operand groups carry speed 100 for actuator 0 and speed 50
for actuator 1, with no group for actuators 2 and 3. -/
theorem ev3_simult_speed_scaling (motors0 : List (Option ℚ)) (speed : ℚ)
    (h4 : motors0.length ≤ 4) :
    (∀ p ∈ ev3SimultMoves (ev3Normalize motors0) speed,
      p.2.2 = (let r := pyround |speed * p.2.1 / ev3MaxAngle (ev3Normalize motors0)|
               if r = 0 then 1 else r) ∧ 1 ≤ p.2.2) ∧
    (∀ i, i < (ev3Normalize motors0).length →
      (ev3Normalize motors0).getD i 0 ≠ 0 →
      ((2 ^ i : ℕ), (ev3Normalize motors0).getD i 0,
        (let r := pyround |speed * (ev3Normalize motors0).getD i 0 /
            ev3MaxAngle (ev3Normalize motors0)|
         if r = 0 then 1 else r)) ∈ ev3SimultMoves (ev3Normalize motors0) speed) ∧
    ev3SimultMoves [90, -45, 0, 0] 100 = [(1, 90, 100), (2, -45, 50)] ∧
    ev3rotate [some 90, some (-45), some 0, some 0] 100 true =
      some [[0, 0, 0, 0, 0,
             167, 0, 1, 1,
             174, 0, 1, 129, 100, 131, 0, 0, 0, 0, 131, 90, 0, 0, 0,
             131, 0, 0, 0, 0, 1,
             167, 0, 2, 63,
             174, 0, 2, 129, 50, 131, 0, 0, 0, 0, 131, 211, 255, 255, 255,
             131, 0, 0, 0, 0, 1,
             170, 0, 15]] := by
  have hspd : ∀ p ∈ ev3SimultMoves (ev3Normalize motors0) speed,
      p.2.2 = (let r := pyround |speed * p.2.1 / ev3MaxAngle (ev3Normalize motors0)|
               if r = 0 then 1 else r) := by
    intro p hp
    simp only [ev3SimultMoves, List.mem_map] at hp
    obtain ⟨q, -, rfl⟩ := hp
    rfl
  have hone : ∀ p ∈ ev3SimultMoves (ev3Normalize motors0) speed, 1 ≤ p.2.2 := by
    intro p hp
    rw [hspd p hp]
    exact one_le_clamp _ (pyround_nonneg _ (abs_nonneg _))
  have hmax : ev3MaxAngle [(90 : ℚ), -45, 0, 0] = 90 := by decide
  have hq100 : pyround |(100 : ℚ) * 90 / 90| = 100 := by
    have h1 : |(100 : ℚ) * 90 / 90| = ((100 : ℤ) : ℚ) := by norm_num
    rw [h1, pyround_intCast]
  have hq50 : pyround |(100 : ℚ) * (-45) / 90| = 50 := by
    have h1 : |(100 : ℚ) * (-45) / 90| = ((50 : ℤ) : ℚ) := by norm_num
    rw [h1, pyround_intCast]
  have hmoves : ev3SimultMoves [90, -45, 0, 0] 100 = [(1, 90, 100), (2, -45, 50)] := by
    have hef : (([(90 : ℚ), -45, 0, 0]).enum.filter (fun p => decide (p.2 ≠ 0))) =
        [(0, (90 : ℚ)), (1, -45)] := by decide
    simp only [ev3SimultMoves, hmax, hef, List.map_cons, List.map_nil, hq100, hq50]
    norm_num
  refine ⟨fun p hp => ⟨hspd p hp, hone p hp⟩, ?_, hmoves, ?_⟩
  · intro i hi hne
    simp only [ev3SimultMoves, List.mem_map]
    refine ⟨(i, (ev3Normalize motors0).getD i 0), ?_, rfl⟩
    rw [List.mem_filter]
    constructor
    · have := getD_mem_enumFrom 0 (ev3Normalize motors0) 0 i hi
      simpa using this
    · simpa using hne
  · have hnorm : ev3Normalize [some 90, some (-45), some 0, some 0] =
        [(90 : ℚ), -45, 0, 0] := by decide
    have hp2a : pack2b ((100 : ℤ) : ℚ) = [129, 100] := by rw [pack2b_int]; decide
    have hp2b : pack2b ((50 : ℤ) : ℚ) = [129, 50] := by rw [pack2b_int]; decide
    have hc0 : (0 : ℚ) = ((0 : ℤ) : ℚ) := by norm_num
    have hc90 : (90 : ℚ) = ((90 : ℤ) : ℚ) := by norm_num
    have hcm45 : (-45 : ℚ) = ((-45 : ℤ) : ℚ) := by norm_num
    have hp50 : pack5b (0 : ℚ) = [131, 0, 0, 0, 0] := by
      rw [hc0, pack5b_int]; decide
    have hp590 : pack5b (90 : ℚ) = [131, 90, 0, 0, 0] := by
      rw [hc90, pack5b_int]; decide
    have hp5m45 : pack5b (-45 : ℚ) = [131, 211, 255, 255, 255] := by
      rw [hcm45, pack5b_int]; decide
    have hlt90 : ¬ ((90 : ℚ) < 0) := by norm_num
    have hltm45 : ((-45 : ℚ) < 0) := by norm_num
    simp only [ev3rotate, ev3SimultMsg, hnorm, hmoves, List.foldl_cons,
      List.foldl_nil, if_neg hlt90, if_pos hltm45, hp2a, hp2b, hp50, hp590,
      hp5m45]
    norm_num

/-- C1 witness: the concrete simultaneous request of the claim. -/
theorem ev3_simult_speed_scaling_witness :
    ev3SimultMoves [90, -45, 0, 0] 100 = [(1, 90, 100), (2, -45, 50)] :=
  (ev3_simult_speed_scaling [some 90, some (-45), some 0, some 0] 100
    (by decide)).2.2.1

/-! ### Claim C8 -/

theorem getD_set_ne' (l : List ℚ) (i k : ℕ) (t : ℚ) (h : k ≠ i) :
    (l.set i t).getD k 0 = l.getD k 0 := by
  simp [List.getD_eq_getElem?_getD, List.getElem?_set_ne (fun hh => h hh.symm)]

theorem getD_set_self' (l : List ℚ) (i : ℕ) (t : ℚ) (h : i < l.length) :
    (l.set i t).getD i 0 = t := by
  simp [List.getD_eq_getElem?_getD, List.getElem?_set_eq_of_lt t h]

theorem rotatetoDeltas_preserves_below (relpos : List (Option ℚ)) :
    ∀ (scale pos : List ℚ) (i k : ℕ), k < i →
      ((rotatetoDeltas scale pos relpos i).2).getD k 0 = pos.getD k 0 := by
  induction relpos with
  | nil =>
    intro scale pos i k _
    rfl
  | cons a rest ih =>
    intro scale pos i k hk
    cases a with
    | none =>
      simp only [rotatetoDeltas]
      exact ih scale pos (i + 1) k (by omega)
    | some t =>
      simp only [rotatetoDeltas]
      rw [ih scale (pos.set i t) (i + 1) k (by omega)]
      exact getD_set_ne' pos i k t (by omega)

theorem rotatetoDeltas_spec (relpos : List (Option ℚ)) :
    ∀ (scale pos : List ℚ) (i j : ℕ), i + relpos.length ≤ pos.length →
      j < relpos.length →
      ((rotatetoDeltas scale pos relpos i).1.getD j 0 =
        match relpos.getD j none with
        | none => 0
        | some t => (t - pos.getD (i + j) 0) * scale.getD (i + j) 0) ∧
      ((rotatetoDeltas scale pos relpos i).2.getD (i + j) 0 =
        match relpos.getD j none with
        | none => pos.getD (i + j) 0
        | some t => t) := by
  induction relpos with
  | nil =>
    intro scale pos i j _ hj
    simp at hj
  | cons a rest ih =>
    intro scale pos i j hlen hj
    cases j with
    | zero =>
      cases a with
      | none =>
        simp only [rotatetoDeltas, List.getD_cons_zero, Nat.add_zero]
        exact ⟨trivial, rotatetoDeltas_preserves_below rest scale pos (i + 1) i
          (by omega)⟩
      | some t =>
        simp only [rotatetoDeltas, List.getD_cons_zero, Nat.add_zero]
        refine ⟨trivial, ?_⟩
        rw [rotatetoDeltas_preserves_below rest scale (pos.set i t) (i + 1) i
          (by omega)]
        exact getD_set_self' pos i t (by simp at hlen; omega)
    | succ j' =>
      have hj' : j' < rest.length := by simp at hj; omega
      cases a with
      | none =>
        have hlen' : (i + 1) + rest.length ≤ pos.length := by
          simp at hlen; omega
        have := ih scale pos (i + 1) j' hlen' hj'
        simp only [rotatetoDeltas, List.getD_cons_succ]
        have harith : i + (j' + 1) = (i + 1) + j' := by omega
        rw [harith]
        exact this
      | some t =>
        have hlen' : (i + 1) + rest.length ≤ (pos.set i t).length := by
          simp at hlen ⊢; omega
        have hmain := ih scale (pos.set i t) (i + 1) j' hlen' hj'
        simp only [rotatetoDeltas, List.getD_cons_succ]
        have harith : i + (j' + 1) = (i + 1) + j' := by omega
        rw [harith]
        have hne : (i + 1) + j' ≠ i := by omega
        rw [getD_set_ne' pos i ((i + 1) + j') t hne] at hmain
        exact hmain

/-- C8 counterexample: with a session state whose scale factor for actuator
0 is 2 and whose relative-position entry is 0, a `rotateto` target of 5
commands a delta of `(5 - 0) * 2 = 10`, not the claimed `target -
RelativePositionState[0] = 5`. -/
theorem rotateto_delta_scale_refuted :
    (rotatetoDeltas [2, 1, 1, 1] [0, 0, 0, 0] [some 5, none, none, none] 0).1 =
      [10, 0, 0, 0] ∧ (10 : ℚ) ≠ 5 - 0 := by
  constructor
  · simp only [rotatetoDeltas]
    norm_num
  · norm_num

/-- C8 (amended): for each present target position at index `i`, the
commanded delta is `(target - RelativePositionState[i]) * relscale[i]` (the
per-actuator scale factor multiplies the difference) and the table entry is
updated to the target; absent (`None`) positions command delta 0 and leave
their entry unchanged; both `rotateto` implementations then delegate to the
class's `rotate` with the resulting delta vector and the given speed. -/
theorem rotateto_delta_translation (pos scale : List ℚ)
    (relpos : List (Option ℚ)) (hlen : relpos.length ≤ pos.length) :
    (∀ j, j < relpos.length →
      ((rotatetoDeltas scale pos relpos 0).1.getD j 0 =
        match relpos.getD j none with
        | none => 0
        | some t => (t - pos.getD j 0) * scale.getD j 0) ∧
      ((rotatetoDeltas scale pos relpos 0).2.getD j 0 =
        match relpos.getD j none with
        | none => pos.getD j 0
        | some t => t)) ∧
    (∀ (st : EV3State) (relpos0 : List (Option ℚ)) (speed : ℚ) (simult : Bool),
      relpos0.length ≤ 4 →
      ev3rotateto st relpos0 speed simult =
        (⟨(rotatetoDeltas st.relscale st.relposition
            (relpos0 ++ List.replicate (4 - relpos0.length) none) 0).2,
          st.relscale⟩,
         ev3rotate ((rotatetoDeltas st.relscale st.relposition
            (relpos0 ++ List.replicate (4 - relpos0.length) none) 0).1.map
              (fun d => some d)) speed simult)) ∧
    (∀ (st : NXTState) (relpos0 : List (Option ℚ)) (speed : ℚ),
      relpos0.length ≤ 3 →
      nxtrotateto st relpos0 speed =
        (⟨(rotatetoDeltas st.relscale st.relposition
            (relpos0 ++ List.replicate (3 - relpos0.length) none) 0).2,
          st.relscale⟩,
         nxtrotate ((rotatetoDeltas st.relscale st.relposition
            (relpos0 ++ List.replicate (3 - relpos0.length) none) 0).1.map
              (fun d => some d)) speed)) := by
  refine ⟨?_, ?_, ?_⟩
  · intro j hj
    have := rotatetoDeltas_spec relpos scale pos 0 j (by omega) hj
    simpa using this
  · intro st relpos0 speed simult h4
    have : ¬ relpos0.length > 4 := by omega
    simp [ev3rotateto, this]
  · intro st relpos0 speed h3
    have : ¬ relpos0.length > 3 := by omega
    simp [nxtrotateto, this]

/-- C8 witness: the amended statement applied to a concrete state and call. -/
theorem rotateto_delta_translation_witness :
    ev3rotateto ⟨[0, 0, 0, 0], [1, 1, 1, 1]⟩ [] 100 false =
      (⟨(rotatetoDeltas [1, 1, 1, 1] [0, 0, 0, 0]
          ([] ++ List.replicate (4 - List.length ([] : List (Option ℚ))) none)
          0).2, [1, 1, 1, 1]⟩,
       ev3rotate ((rotatetoDeltas [1, 1, 1, 1] [0, 0, 0, 0]
          ([] ++ List.replicate (4 - List.length ([] : List (Option ℚ))) none)
          0).1.map (fun d => some d)) 100 false) :=
  (rotateto_delta_translation [0, 0, 0, 0] [1, 1, 1, 1] [] (by decide)).2.1
    ⟨[0, 0, 0, 0], [1, 1, 1, 1]⟩ [] 100 false (by decide)

/-! ### Claims C2 and C3: the step planner -/

theorem stepperStart_length (s0 e0 : List (Option ℤ)) :
    (stepperStart s0 e0).length = e0.length := by
  simp only [stepperStart, List.length_append, List.length_take,
    List.length_map, List.length_replicate]
  omega

theorem stepperEnd_length (e0 : List (Option ℤ)) :
    (stepperEnd e0).length = e0.length := by
  simp [stepperEnd]

theorem stepperDelta_length (s0 e0 : List (Option ℤ)) :
    (stepperDelta s0 e0).length = e0.length := by
  rw [stepperDelta, List.length_zipWith, stepperEnd_length, stepperStart_length]
  omega

theorem foldl_max_natAbs_eq_zero (l : List ℤ) :
    ∀ init : ℕ, (l.foldl (fun a d => max a d.natAbs) init = 0 ↔
      init = 0 ∧ ∀ d ∈ l, d = 0) := by
  induction l with
  | nil =>
    intro init
    simp
  | cons a t ih =>
    intro init
    rw [List.foldl_cons, ih]
    constructor
    · rintro ⟨h1, h2⟩
      have ha : a = 0 := by omega
      refine ⟨by omega, fun d hd => ?_⟩
      rcases List.mem_cons.mp hd with rfl | hd
      · exact ha
      · exact h2 d hd
    · rintro ⟨h1, h2⟩
      have ha : a = 0 := h2 a (List.mem_cons_self a t)
      refine ⟨by omega, fun d hd => h2 d (List.mem_cons_of_mem a hd)⟩

theorem zipWith_sub_all_zero (e : List ℤ) :
    ∀ s : List ℤ, e.length = s.length →
      ((∀ d ∈ List.zipWith (fun a b => a - b) e s, d = 0) ↔ e = s) := by
  induction e with
  | nil =>
    intro s h
    cases s with
    | nil => simp
    | cons b u => simp at h
  | cons a t ih =>
    intro s h
    cases s with
    | nil => simp at h
    | cons b u =>
      simp only [List.zipWith_cons_cons, List.mem_cons, List.cons.injEq]
      constructor
      · intro hall
        have h1 : a - b = 0 := hall _ (Or.inl rfl)
        refine ⟨by omega, (ih u (by simpa using h)).mp fun d hd => hall d (Or.inr hd)⟩
      · rintro ⟨rfl, rfl⟩
        intro d hd
        rcases hd with rfl | hd
        · omega
        · exact (ih t rfl).mpr rfl d hd

theorem stepperLoop_length (inc : List ℚ) :
    ∀ (n : ℕ) (cur : List ℚ), (stepperLoop cur inc n).length = n := by
  intro n
  induction n with
  | zero => intro cur; rfl
  | succ m ih =>
    intro cur
    simp only [stepperLoop, List.length_cons, ih]

theorem zipWith_add_add (c : List ℚ) :
    ∀ (i : List ℚ) (k : ℚ),
      List.zipWith (fun a b => a + b) (List.zipWith (fun a b => a + b) c i)
        (i.map (fun x => k * x)) =
      List.zipWith (fun a b => a + b) c (i.map (fun x => (k + 1) * x)) := by
  induction c with
  | nil =>
    intro i k
    simp
  | cons a t ih =>
    intro i k
    cases i with
    | nil => simp
    | cons b u =>
      simp only [List.zipWith_cons_cons, List.map_cons]
      rw [ih u k]
      congr 1
      ring

theorem stepperRound_intCast (z : ℤ) : stepperRound (z : ℚ) = z := by
  unfold stepperRound
  exact pyround_int_add_small z _ (by norm_num) (by norm_num)

theorem map_stepperRound_cast (e : List ℤ) :
    (e.map (fun z : ℤ => (z : ℚ))).map stepperRound = e := by
  induction e with
  | nil => rfl
  | cons a t ih => simp [stepperRound_intCast, ih]

theorem zip_cast_sub (e : List ℤ) :
    ∀ s : List ℤ, e.length = s.length →
      List.zipWith (fun a b => a + b) (s.map (fun z : ℤ => (z : ℚ)))
        ((List.zipWith (fun a b : ℤ => a - b) e s).map (fun z : ℤ => (z : ℚ))) =
      e.map (fun z : ℤ => (z : ℚ)) := by
  induction e with
  | nil =>
    intro s h
    cases s with
    | nil => rfl
    | cons b u => simp at h
  | cons a t ih =>
    intro s h
    cases s with
    | nil => simp at h
    | cons b u =>
      simp only [List.map_cons, List.zipWith_cons_cons]
      rw [ih u (by simpa using h)]
      congr 1
      push_cast
      ring

theorem map_div_mul (delta : List ℤ) (steps : ℕ) (h : steps ≠ 0) :
    (delta.map (fun d : ℤ => (d : ℚ) / steps)).map (fun x => (steps : ℚ) * x) =
      delta.map (fun d : ℤ => (d : ℚ)) := by
  rw [List.map_map]
  apply List.map_congr_left
  intro d _
  have hs : (steps : ℚ) ≠ 0 := Nat.cast_ne_zero.mpr h
  simp only [Function.comp_apply]
  rw [mul_comm, div_mul_cancel₀ _ hs]

theorem stepperLoop_getLast (inc : List ℚ) :
    ∀ (n : ℕ) (cur : List ℚ),
      (stepperLoop cur inc (n + 1)).getLast? =
        some ((List.zipWith (fun a b => a + b) cur
          (inc.map (fun x => ((n + 1 : ℕ) : ℚ) * x))).map stepperRound) := by
  intro n
  induction n with
  | zero =>
    intro cur
    simp [stepperLoop]
  | succ m ih =>
    intro cur
    have e1 : stepperLoop cur inc (m + 1 + 1) =
        (List.zipWith (fun a b => a + b) cur inc).map stepperRound ::
          stepperLoop (List.zipWith (fun a b => a + b) cur inc) inc (m + 1) := rfl
    have e2 : stepperLoop (List.zipWith (fun a b => a + b) cur inc) inc (m + 1) =
        (List.zipWith (fun a b => a + b)
            (List.zipWith (fun a b => a + b) cur inc) inc).map stepperRound ::
          stepperLoop (List.zipWith (fun a b => a + b)
            (List.zipWith (fun a b => a + b) cur inc) inc) inc m := rfl
    rw [e1, e2, List.getLast?_cons_cons, ← e2,
      ih (List.zipWith (fun a b => a + b) cur inc),
      zipWith_add_add cur inc ((m + 1 : ℕ) : ℚ)]
    have hc : ((m + 1 : ℕ) : ℚ) + 1 = ((m + 1 + 1 : ℕ) : ℚ) := by push_cast; ring
    rw [hc]

theorem getstepper_shape (s0 e0 : List (Option ℤ))
    (h : stepperStart s0 e0 ≠ stepperEnd e0) :
    ∃ ws, getstepper s0 e0 = some ws ∧
      ws.length = stepperSteps s0 e0 + 1 ∧
      ws.head? = some (stepperStart s0 e0) ∧
      ws.getLast? = some (stepperEnd e0) := by
  have hlens : (stepperStart s0 e0).length = e0.length := stepperStart_length s0 e0
  have hlene : (stepperEnd e0).length = e0.length := stepperEnd_length e0
  have hne : ¬ (stepperEnd e0).length = 0 := by
    intro h0
    apply h
    have h1 : stepperEnd e0 = [] := List.length_eq_zero.mp h0
    have h2 : stepperStart s0 e0 = [] := List.length_eq_zero.mp (by omega)
    rw [h1, h2]
  have hsz : ¬ stepperSteps s0 e0 = 0 := by
    intro h0
    apply h
    have hall := (foldl_max_natAbs_eq_zero (stepperDelta s0 e0) 0).mp h0
    have := (zipWith_sub_all_zero (stepperEnd e0) (stepperStart s0 e0)
      (by omega)).mp hall.2
    exact this.symm
  have hgs : getstepper s0 e0 = some (stepperStart s0 e0 ::
      stepperLoop ((stepperStart s0 e0).map (fun z : ℤ => (z : ℚ)))
        ((stepperDelta s0 e0).map (fun d : ℤ => (d : ℚ) / (stepperSteps s0 e0 : ℚ)))
        (stepperSteps s0 e0)) := by
    simp only [getstepper]
    rw [if_neg hne, if_neg hsz]
  obtain ⟨m, hm⟩ : ∃ m, stepperSteps s0 e0 = m + 1 :=
    ⟨stepperSteps s0 e0 - 1, by omega⟩
  refine ⟨_, hgs, ?_, ?_, ?_⟩
  · simp [stepperLoop_length]
  · rfl
  · rw [hm]
    have e2 : stepperLoop
        ((stepperStart s0 e0).map (fun z : ℤ => (z : ℚ)))
        ((stepperDelta s0 e0).map (fun d : ℤ => (d : ℚ) / ((m + 1 : ℕ) : ℚ)))
        (m + 1) =
      (List.zipWith (fun a b => a + b)
          ((stepperStart s0 e0).map (fun z : ℤ => (z : ℚ)))
          ((stepperDelta s0 e0).map (fun d : ℤ =>
            (d : ℚ) / ((m + 1 : ℕ) : ℚ)))).map stepperRound ::
        stepperLoop (List.zipWith (fun a b => a + b)
          ((stepperStart s0 e0).map (fun z : ℤ => (z : ℚ)))
          ((stepperDelta s0 e0).map (fun d : ℤ =>
            (d : ℚ) / ((m + 1 : ℕ) : ℚ))))
          ((stepperDelta s0 e0).map (fun d : ℤ =>
            (d : ℚ) / ((m + 1 : ℕ) : ℚ))) m := rfl
    rw [e2, List.getLast?_cons_cons, ← e2, stepperLoop_getLast]
    have hdiv : ((stepperDelta s0 e0).map (fun d : ℤ =>
        (d : ℚ) / ((m + 1 : ℕ) : ℚ))).map
          (fun x => ((m + 1 : ℕ) : ℚ) * x) =
        (stepperDelta s0 e0).map (fun d : ℤ => (d : ℚ)) :=
      map_div_mul (stepperDelta s0 e0) (m + 1) (by omega)
    rw [hdiv]
    have hzip : List.zipWith (fun a b => a + b)
        ((stepperStart s0 e0).map (fun z : ℤ => (z : ℚ)))
        ((stepperDelta s0 e0).map (fun d : ℤ => (d : ℚ))) =
        (stepperEnd e0).map (fun z : ℤ => (z : ℚ)) := by
      rw [stepperDelta]
      exact zip_cast_sub (stepperEnd e0) (stepperStart s0 e0) (by omega)
    rw [hzip, map_stepperRound_cast]

/-- C2: whenever the adapted start vector differs from the end vector,
`getstepper` succeeds and returns exactly `steps + 1` integer waypoints,
whose first element is exactly the adapted start vector and whose last
element is exactly the end vector, regardless of the rounding applied to
intermediate waypoints; in particular `getstepper([0,0], [10,-3])` yields 11
waypoints ending exactly at `[10,-3]`, and `getstepper([], [5])` treats the
start as `[0]` and yields 6 waypoints ending at `[5]`. -/
theorem getstepper_shape_endpoint (s0 e0 : List (Option ℤ))
    (h : stepperStart s0 e0 ≠ stepperEnd e0) :
    (∃ ws, getstepper s0 e0 = some ws ∧
      ws.length = stepperSteps s0 e0 + 1 ∧
      ws.head? = some (stepperStart s0 e0) ∧
      ws.getLast? = some (stepperEnd e0)) ∧
    (∃ ws, getstepper [some 0, some 0] [some 10, some (-3)] = some ws ∧
      ws.length = 11 ∧ ws.head? = some [0, 0] ∧ ws.getLast? = some [10, -3]) ∧
    (∃ ws, getstepper [] [some 5] = some ws ∧
      ws.length = 6 ∧ ws.head? = some [0] ∧ ws.getLast? = some [5]) := by
  refine ⟨getstepper_shape s0 e0 h, ?_, ?_⟩
  · obtain ⟨ws, hws, hlen, hh, hl⟩ :=
      getstepper_shape [some 0, some 0] [some 10, some (-3)] (by decide)
    rw [show stepperSteps [some 0, some 0] [some 10, some (-3)] = 10 from by decide]
      at hlen
    rw [show stepperStart [some 0, some 0] [some 10, some (-3)] = [0, 0] from by decide]
      at hh
    rw [show stepperEnd [some 10, some (-3)] = [10, -3] from by decide] at hl
    exact ⟨ws, hws, hlen, hh, hl⟩
  · obtain ⟨ws, hws, hlen, hh, hl⟩ := getstepper_shape [] [some 5] (by decide)
    rw [show stepperSteps [] [some 5] = 5 from by decide] at hlen
    rw [show stepperStart [] [some 5] = [0] from by decide] at hh
    rw [show stepperEnd [some 5] = [5] from by decide] at hl
    exact ⟨ws, hws, hlen, hh, hl⟩

/-- C2 witness: the shape guarantee applied to the concrete call
`getstepper([], [5])`. -/
theorem getstepper_shape_endpoint_witness :
    ∃ ws, getstepper [] [some 5] = some ws ∧
      ws.length = 6 ∧ ws.head? = some [0] ∧ ws.getLast? = some [5] :=
  (getstepper_shape_endpoint [] [some 5] (by decide)).2.2

/-- C3 counterexample: a degenerate call with `start = end` does not return
the single waypoint `start`: the source divides by `steps == 0`
(`ZeroDivisionError`), modelled as `none`, so the function fails instead of
succeeding. -/
theorem getstepper_degenerate_refuted :
    getstepper [some 3] [some 3] = none ∧
    getstepper [some 3] [some 3] ≠ some [[3]] := by decide

/-- C3 (amended): `steps` is `max_i |end_i - start_i|` (no rounding is
applied by the source; on the integer-valued calls modelled here this
coincides with the claim's `round`), `steps = 0` exactly when the adapted
start vector equals the end vector, and in that degenerate case the call
fails with a division-by-zero error instead of returning the single
waypoint `start`. -/
theorem getstepper_degenerate (s0 e0 : List (Option ℤ)) :
    (stepperSteps s0 e0 = 0 ↔ stepperStart s0 e0 = stepperEnd e0) ∧
    (stepperStart s0 e0 = stepperEnd e0 → getstepper s0 e0 = none) := by
  have hiff : stepperSteps s0 e0 = 0 ↔ stepperStart s0 e0 = stepperEnd e0 := by
    rw [stepperSteps, foldl_max_natAbs_eq_zero]
    have hlen : (stepperEnd e0).length = (stepperStart s0 e0).length := by
      rw [stepperEnd_length, stepperStart_length]
    rw [stepperDelta]
    constructor
    · intro hz
      exact ((zipWith_sub_all_zero _ _ hlen).mp hz.2).symm
    · intro he
      exact ⟨rfl, (zipWith_sub_all_zero _ _ hlen).mpr he.symm⟩
  refine ⟨hiff, fun he => ?_⟩
  by_cases hlen : (stepperEnd e0).length = 0
  · simp [getstepper, hlen]
  · have hz : stepperSteps s0 e0 = 0 := hiff.mpr he
    simp [getstepper, hlen, hz]

/-- C3 witness: a concrete degenerate call fails. -/
theorem getstepper_degenerate_witness :
    getstepper [some 1, some 2] [some 1, some 2] = none :=
  (getstepper_degenerate [some 1, some 2] [some 1, some 2]).2 (by decide)
